import Mathlib

/-!
Verification of the undo-log core of `src/undo.c` (GNU Emacs fork).

The C code manipulates `Lisp_Object` values: the per-buffer undo log
`buffer-undo-list` is a cons chain, newest entry first, whose elements are

  * `nil`                      — an undo boundary,
  * `(BEG . END)` integers     — an insertion record,
  * `(STRING . POS)`           — a deletion record (POS negative encodes
                                 "point was at the end of the deleted text"),
  * `(MARKER . ADJUSTMENT)`    — a marker adjustment record,
  * `(t . TIME)`               — a first-change record,
  * `(nil PROP VAL BEG . END)` — a property-change record,
  * an integer                 — a position-of-point hint.

We embed `Lisp_Object` shallowly as the inductive `LObj` below.  Machine
integers (`EMACS_INT`, `ptrdiff_t`) become `Int`; strings keep their
character content (`SCHARS` is the length).  The byte-size constants are
those of a 64-bit build: `sizeof (struct Lisp_Cons) = 16` and
`sizeof (struct Lisp_String) = 32`.
-/

set_option autoImplicit false

namespace Undo

/-- Shallow embedding of the `Lisp_Object` values that `undo.c` handles:
`nil`, `t`, integers, strings, cons cells and markers. -/
inductive LObj where
  | nil
  | t
  | num (n : Int)
  | str (s : String)
  | cons (a b : LObj)
  | marker (id : Nat)
  deriving DecidableEq

/-- `sizeof (struct Lisp_Cons)` on a 64-bit build. -/
def lispConsSize : Nat := 16

/-- `sizeof (struct Lisp_String)` on a 64-bit build. -/
def lispStringSize : Nat := 32

/-- The bytes charged for the car of a compound entry when it is a string:
`sizeof (struct Lisp_String) - 1 + SCHARS (XCAR (elt))`, and nothing
otherwise.  (Both `Fundo_size` and `truncate_undo_list` guard this with
`STRINGP (XCAR (elt))`.) -/
def strPart : LObj → Nat
  | .str s => lispStringSize - 1 + s.length
  | _ => 0

/-- The cars of the cons spine of a Lisp list: the log's entries, newest
first.  A non-cons tail (`nil` for a proper list) contributes nothing. -/
def spine : LObj → List LObj
  | .cons a b => a :: spine b
  | _ => []

/-- Per-entry byte cost as accumulated by `Fundo_size` (`undo-size`): one
`Lisp_Cons` for the chain link, plus the string bytes when the entry is a
cons whose car is a string. -/
def undoSizeCost : LObj → Nat
  | .cons a _ => lispConsSize + strPart a
  | _ => lispConsSize

/-- Per-entry byte cost as accumulated by the scans in `truncate_undo_list`:
one `Lisp_Cons` for the chain link, plus — when the entry is itself a cons —
one more `Lisp_Cons` for the entry cell and the string bytes when its car is
a string. -/
def entryCost : LObj → Nat
  | .cons a _ => lispConsSize + (lispConsSize + strPart a)
  | _ => lispConsSize

/-- The loop of `Fundo_size`: walk the cons chain accumulating
`size_so_far`; inside `CONSP (elt)`, an entry whose car is `nil` bumps
`boundary_so_far` and breaks out once `boundary_so_far >= num` (the node's
chain-link bytes having already been added, its string check not yet run —
vacuous, since its car is `nil`).  Note that an actual boundary (the entry
`nil` itself) is *not* a cons, so it never reaches the boundary test.
The counters start at zero, as the spec's design note directs for the
uninitialized C locals. -/
def undoSizeScan (num : Int) : LObj → Nat → Int → Nat
  | .cons elt rest, size, bnd =>
    match elt with
    | .cons a _ =>
      if a = LObj.nil then
        if bnd + 1 ≥ num then size + lispConsSize
        else undoSizeScan num rest (size + lispConsSize + strPart a) (bnd + 1)
      else undoSizeScan num rest (size + lispConsSize + strPart a) bnd
    | _ => undoSizeScan num rest (size + lispConsSize) bnd
  | _, size, _ => size

/-- `Fundo_size` (`undo-size`): returns `nil` when the log is the disabled
sentinel `t`; signals a wrong-type-argument error (`CHECK_NUMBER`) when the
supplied count is neither absent (`nil`) nor an integer; otherwise returns
the accumulated size.  An absent count leaves the C local `num`
uninitialized; per the spec's design note we model the uninitialized
integers as zero. -/
def Fundo_size (n : LObj) (lst : LObj) : Except Unit LObj :=
  if lst = LObj.t then Except.ok LObj.nil
  else
    match n with
    | .nil => Except.ok (LObj.num (undoSizeScan 0 lst 0 0))
    | .num k => Except.ok (LObj.num (undoSizeScan k lst 0 0))
    | _ => Except.error ()

/-- The whole-list byte cost under `Fundo_size`'s per-entry accounting:
what a scan that never stops at a boundary would report. -/
def undoSizeFull (lst : LObj) : Nat :=
  ((spine lst).map undoSizeCost).sum

/-!
## `truncate_undo_list`

The C routine keeps three cursors into the list: `next` (the current
node), `prev` (the node just scanned) and `last_boundary` (the node whose
cdr will be severed).  We model a cursor as the index of a node in the
spine (`prev`, `last_boundary : Option Nat`, with `none` for `Qnil`) and
`next` as the remaining sublist, which is a faithful rendering because the
routine only ever moves the cursors forward and finally performs
`XSETCDR (last_boundary, Qnil)` — i.e. keeps the nodes up to and including
`last_boundary` and drops the rest.

The call to `undo-outer-limit-function` is modelled as a pure predicate
`handler : Nat → Bool` on the accumulated size, returning whether the
handler reported "handled" (non-`nil`); when it does, the routine returns
with the list untouched (the handler owns any mutation), which we render as
the distinguished result `TruncResult.handled`.  `Vundo_outer_limit` is
`Option Int` (`none` for any non-integer value, which disables the check).
-/

/-- The state of the scan in `truncate_undo_list` after the first two
phases (skipping a leading boundary and sizing the first command):
`size_so_far`, the index `idx` of the node `next` points at, the cursor
`prev`, and the remaining list `next`. -/
structure Phase where
  size : Nat
  idx : Nat
  prev : Option Nat
  next : LObj
  deriving DecidableEq

/-- The result of the retention scan: the final `last_boundary` cursor,
the final `next`, and the final `size_so_far`. -/
structure ScanOut where
  lastB : Option Nat
  next : LObj
  size : Nat
  deriving DecidableEq

/-- The second loop of `truncate_undo_list`: scan through the records of
the most recent command, stopping at the first boundary (`NILP (XCAR)` )
or when the list runs out. -/
def scanFirstCommand : LObj → Nat → Nat → Option Nat → Phase
  | .cons elt rest, size, idx, prev =>
    if elt = LObj.nil then ⟨size, idx, prev, .cons elt rest⟩
    else scanFirstCommand rest (size + entryCost elt) (idx + 1) (some idx)
  | x, size, idx, prev => ⟨size, idx, prev, x⟩

/-- Phases 1–2 of `truncate_undo_list`: skip a leading boundary if present
(charging its chain link) and then size the first command's records. -/
def truncPhaseAB (lst : LObj) : Phase :=
  match lst with
  | .cons LObj.nil rest => scanFirstCommand rest lispConsSize 1 (some 0)
  | _ => scanFirstCommand lst 0 0 none

/-- `if (CONSP (next)) last_boundary = prev;` — the initial candidate cut
point, set just before the retention loop. -/
def initLastB (p : Phase) : Option Nat :=
  match p.next with
  | .cons _ _ => p.prev
  | _ => none

/-- The retention loop of `truncate_undo_list` (`/* Keep additional undo
data, if it fits in the limits.  */`).  At each boundary: breaking past
`undo_strong_limit` stops the scan with `last_boundary` unchanged;
otherwise `last_boundary` moves to `prev` (the node just before the
boundary — cutting there keeps everything newer than the boundary), and
breaking past `undo_limit` stops the scan there.  Every entry that is
scanned past is charged via `entryCost`. -/
def scanKeep (soft strong : Int) : LObj → Nat → Nat → Option Nat → Option Nat → ScanOut
  | .cons elt rest, size, idx, prev, lastB =>
    if elt = LObj.nil then
      if (size : Int) > strong then ⟨lastB, .cons elt rest, size⟩
      else if (size : Int) > soft then ⟨prev, .cons elt rest, size⟩
      else scanKeep soft strong rest (size + entryCost elt) (idx + 1) (some idx) prev
    else scanKeep soft strong rest (size + entryCost elt) (idx + 1) (some idx) lastB
  | x, size, _, _, lastB => ⟨lastB, x, size⟩

/-- The whole scan of `truncate_undo_list` (phases 1–2 followed by the
retention loop with the candidate cut point initialized per `initLastB`). -/
def truncScan (soft strong : Int) (lst : LObj) : ScanOut :=
  let p := truncPhaseAB lst
  scanKeep soft strong p.next p.size p.idx p.prev (initLastB p)

/-- Outcome of `truncate_undo_list`: either the overflow handler reported
"handled" (and owns any list mutation), or the routine finished and the
buffer's undo list is the returned value. -/
inductive TruncResult where
  | handled (size : Nat)
  | done (lst : LObj)
  deriving DecidableEq

/-- Keep the first `n` nodes of a cons chain and sever the rest:
the effect of `XSETCDR` on node `n - 1`. -/
def takeNodes : Nat → LObj → LObj
  | 0, _ => LObj.nil
  | n + 1, .cons a b => LObj.cons a (takeNodes n b)
  | _ + 1, _ => LObj.nil

/-- The terminal atom of a cons chain: `nil` for a proper list, the
malformed tail otherwise (and the value itself when it is no cons at
all, e.g. the disabled sentinel `t`). -/
def listTail : LObj → LObj
  | .cons _ b => listTail b
  | x => x

/-- `truncate_undo_list`, as a function of the three limits, the overflow
handler and the buffer's undo list.  After sizing the first command, the
outer-limit check may hand the problem to the handler; otherwise the
retention scan runs and the routine either leaves the list unchanged
(`NILP (next)`: the whole list was scanned), severs it after the candidate
cut node, or — with no candidate — clears it to `nil`. -/
def truncate_undo_list (soft strong : Int) (outer : Option Int)
    (handler : Option (Nat → Bool)) (lst : LObj) : TruncResult :=
  let p := truncPhaseAB lst
  let handed : Bool :=
    match outer, handler with
    | some lim, some hf => decide ((p.size : Int) > lim) && hf p.size
    | _, _ => false
  if handed then TruncResult.handled p.size
  else
    let s := truncScan soft strong lst
    if s.next = LObj.nil then TruncResult.done lst
    else
      match s.lastB with
      | some i => TruncResult.done (takeNodes (i + 1) lst)
      | none => TruncResult.done LObj.nil

/-- The degenerate all-cleared case of the final branch: the scan stopped
before the end of the list but no candidate cut point was ever
established, so the whole log is replaced by `nil`. -/
def truncClearsAll (soft strong : Int) (lst : LObj) : Bool :=
  decide ((truncScan soft strong lst).next ≠ LObj.nil
    ∧ (truncScan soft strong lst).lastB = none)

/-!
## The recorder

`record_insert`, `record_delete`, `record_point`, `record_first_change`
and `record_marker_adjustments` act on the current buffer plus a few
globals.  We gather the state they read and write into `UState`:

  * `undo_list`       — `BVAR (current_buffer, undo_list)`;
  * `pt`              — `PT`, the cursor position;
  * `modiff`, `save_modiff` — `MODIFF` and `SAVE_MODIFF`;
  * `pending_boundary` — whether the static `pending_boundary` cons is
    allocated (`true` = non-`nil`);
  * `last_boundary_buffer_eq` — whether the static `last_boundary_buffer`
    equals the current buffer;
  * `last_boundary_position` — the static `last_boundary_position`;
  * `undoably_changed` — the buffer-local `undo-buffer-undoably-changed`
    (running `undo-first-undoable-change-hook` has no further effect on
    this state);
  * `inhibit_record_point` — `undo_inhibit_record_point`;
  * `markers`          — `BUF_MARKERS (current_buffer)`, in chain order;
  * `visited_modtime`  — what `Fvisited_file_modtime` reports for this
    buffer (an external interface; modelled as a stored integer).
-/

/-- One entry of the buffer's marker chain: character position,
`insertion_type` flag, and an identity for the `XSETMISC` reference that
ends up in the undo list. -/
structure UMarker where
  pos : Int
  insertion_type : Bool
  id : Nat
  deriving DecidableEq

/-- The buffer-and-globals state read and written by the recording
functions of `undo.c`. -/
structure UState where
  undo_list : LObj
  pt : Int
  modiff : Int
  save_modiff : Int
  pending_boundary : Bool
  last_boundary_buffer_eq : Bool
  last_boundary_position : Int
  undoably_changed : Bool
  inhibit_record_point : Bool
  markers : List UMarker
  visited_modtime : Int
  deriving DecidableEq

/-- `record_first_change`: computes `base_buffer` (the base of an indirect
buffer, when there is one) — and then never uses it: the `(t . TIME)` record
is pushed onto the *current* buffer's undo list with the *current* buffer's
visited-file modtime.  The second component carries the (unused, unchanged)
base buffer. -/
def record_first_change (cur : UState) (base : Option UState) :
    UState × Option UState :=
  if cur.undo_list = LObj.t then (cur, base)
  else
    ({ cur with
        undo_list := LObj.cons (LObj.cons LObj.t (LObj.num cur.visited_modtime))
          cur.undo_list },
     base)

/-- `record_point`: unless suppressed, pre-reserves the pending boundary,
marks the buffer undoably changed (firing the hook), notes whether the log
head is a boundary, records a first-change entry when the buffer is
unmodified since save, and — when just after a boundary in the same buffer
with the cursor elsewhere — pushes the last boundary's cursor position. -/
def record_point (pt : Int) (st : UState) : UState :=
  if st.inhibit_record_point then st
  else
    let st1 := { st with pending_boundary := true, undoably_changed := true }
    let atBoundary : Bool :=
      match st1.undo_list with
      | .cons a _ => decide (a = LObj.nil)
      | _ => true
    let st2 := if st1.modiff ≤ st1.save_modiff
               then (record_first_change st1 none).1 else st1
    if atBoundary && st2.last_boundary_buffer_eq
        && decide (st2.last_boundary_position ≠ pt) then
      { st2 with
          undo_list := LObj.cons (LObj.num st2.last_boundary_position)
            st2.undo_list }
    else st2

/-- `record_insert`: a no-op when logging is disabled; otherwise runs
`record_point beg`, then — when the log head is a cons of two integers
whose cdr equals `beg` — extends that head record in place, and otherwise
pushes a fresh `(beg . beg + length)` record. -/
def record_insert (beg length : Int) (st : UState) : UState :=
  if st.undo_list = LObj.t then st
  else
    let st1 := record_point beg st
    match st1.undo_list with
    | .cons (LObj.cons (LObj.num a) (LObj.num b)) rest =>
      if b = beg then
        { st1 with
            undo_list := LObj.cons
              (LObj.cons (LObj.num a) (LObj.num (beg + length))) rest }
      else
        { st1 with
            undo_list := LObj.cons
              (LObj.cons (LObj.num beg) (LObj.num (beg + length)))
              st1.undo_list }
    | _ =>
      { st1 with
          undo_list := LObj.cons
            (LObj.cons (LObj.num beg) (LObj.num (beg + length)))
            st1.undo_list }

/-- The `adjustment` computed by `record_marker_adjustments` for marker `m`
over the deleted range `[f, t]`:
`(m->insertion_type ? to : from) - charpos`. -/
def markerAdjustment (f t : Int) (m : UMarker) : Int :=
  (if m.insertion_type then t else f) - m.pos

/-- The `(MARKER . ADJUSTMENT)` entry pushed for marker `m`. -/
def adjEntry (f t : Int) (m : UMarker) : LObj :=
  LObj.cons (LObj.marker m.id) (LObj.num (markerAdjustment f t m))

/-- The test `record_marker_adjustments` applies to each marker:
`from <= charpos && charpos <= to` — a *closed* interval — and a nonzero
adjustment. -/
def markerEligible (f t : Int) (m : UMarker) : Bool :=
  decide (f ≤ m.pos) && decide (m.pos ≤ t) && decide (markerAdjustment f t m ≠ 0)

/-- `record_marker_adjustments`: pre-reserves the pending boundary, marks
the buffer undoably changed, then walks the marker chain pushing an
adjustment record for every eligible marker. -/
def record_marker_adjustments (f t : Int) (st : UState) : UState :=
  let st1 := { st with pending_boundary := true, undoably_changed := true }
  { st1 with
      undo_list := st1.markers.foldl
        (fun l m => if markerEligible f t m then LObj.cons (adjEntry f t m) l else l)
        st1.undo_list }

/-- `record_delete`: a no-op when logging is disabled; otherwise encodes
"point was at the end of the deleted text" as a negated position, runs
`record_point` (with `PT` in the at-end case, `beg` otherwise), optionally
records marker adjustments for the deleted range, and finally pushes the
`(STRING . POS)` record. -/
def record_delete (beg : Int) (s : String) (record_markers : Bool)
    (st : UState) : UState :=
  if st.undo_list = LObj.t then st
  else
    let atEnd : Bool := decide (st.pt = beg + (s.length : Int))
    let sbeg : Int := if atEnd then -beg else beg
    let st1 := record_point (if atEnd then st.pt else beg) st
    let st2 := if record_markers
               then record_marker_adjustments beg (beg + (s.length : Int)) st1
               else st1
    { st2 with
        undo_list := LObj.cons (LObj.cons (LObj.str s) (LObj.num sbeg))
          st2.undo_list }

/-!
## Concrete logs and states used by the claim theorems
-/

/-- C1 witness: a concrete five-node log `[rec, boundary, deletion-record,
boundary, rec]` with `undo-limit 40` and `undo-strong-limit 1000`; the
truncation cuts after the deletion record, and the first command's segment
(one record, `idx = 1`) is preserved. -/
def c1log : LObj :=
  LObj.cons (LObj.cons (LObj.num 1) (LObj.num 2))
    (LObj.cons LObj.nil
      (LObj.cons (LObj.cons (LObj.str "aaaaaaaaaa") (LObj.num 3))
        (LObj.cons LObj.nil
          (LObj.cons (LObj.cons (LObj.num 7) (LObj.num 8)) LObj.nil))))

/-- C1 witness output: the log truncated after the second command. -/
def c1out : LObj :=
  LObj.cons (LObj.cons (LObj.num 1) (LObj.num 2))
    (LObj.cons LObj.nil
      (LObj.cons (LObj.cons (LObj.str "aaaaaaaaaa") (LObj.num 3)) LObj.nil))

/-- C3 log: a property-change record `(nil PROP VAL BEG . END)` (whose
*car* is `nil` although the entry itself is a cons, i.e. not a boundary)
followed by an insertion record. -/
def c3log : LObj :=
  LObj.cons
    (LObj.cons LObj.nil
      (LObj.cons (LObj.str "p") (LObj.cons LObj.t (LObj.cons (LObj.num 1) (LObj.num 2)))))
    (LObj.cons (LObj.cons (LObj.num 1) (LObj.num 2)) LObj.nil)

/-- C4 log: a single simple insertion record. -/
def c4log : LObj :=
  LObj.cons (LObj.cons (LObj.num 1) (LObj.num 2)) LObj.nil

/-- The extra bytes `truncate_undo_list` charges per entry beyond
`Fundo_size`'s accounting: one `Lisp_Cons` for every compound (cons)
entry, nothing for boundaries and other atoms. -/
def consExtra : LObj → Nat
  | .cons _ _ => lispConsSize
  | _ => 0

/-- C5 state: an empty log and a single non-sticky marker sitting exactly
at the right edge `to = 3` of the deleted range `[1, 3)`. -/
def c5st : UState :=
  { undo_list := LObj.nil, pt := 0, modiff := 1, save_modiff := 0,
    pending_boundary := false, last_boundary_buffer_eq := false,
    last_boundary_position := 0, undoably_changed := false,
    inhibit_record_point := false,
    markers := [⟨3, false, 0⟩], visited_modtime := 0 }

/-- C6 state for the counterexample: the log head is the insertion record
`(10 . 13)`, but the buffer counts as unmodified since its last save
(`MODIFF <= SAVE_MODIFF`). -/
def c6st : UState :=
  { undo_list := LObj.cons (LObj.cons (LObj.num 10) (LObj.num 13)) LObj.nil,
    pt := 0, modiff := 0, save_modiff := 0,
    pending_boundary := false, last_boundary_buffer_eq := false,
    last_boundary_position := 0, undoably_changed := false,
    inhibit_record_point := false, markers := [], visited_modtime := 0 }

/-- C6 witness state: like `c6st` but modified since save. -/
def c6wst : UState :=
  { undo_list := LObj.cons (LObj.cons (LObj.num 10) (LObj.num 13)) LObj.nil,
    pt := 0, modiff := 1, save_modiff := 0,
    pending_boundary := false, last_boundary_buffer_eq := false,
    last_boundary_position := 0, undoably_changed := false,
    inhibit_record_point := false, markers := [], visited_modtime := 0 }

/-- C7 current (indirect) buffer: empty log, visited-file modtime 5. -/
def c7cur : UState :=
  { undo_list := LObj.nil, pt := 0, modiff := 0, save_modiff := 0,
    pending_boundary := false, last_boundary_buffer_eq := false,
    last_boundary_position := 0, undoably_changed := false,
    inhibit_record_point := false, markers := [], visited_modtime := 5 }

/-- C7 base (root) buffer: empty log, visited-file modtime 7. -/
def c7base : UState :=
  { undo_list := LObj.nil, pt := 0, modiff := 0, save_modiff := 0,
    pending_boundary := false, last_boundary_buffer_eq := false,
    last_boundary_position := 0, undoably_changed := false,
    inhibit_record_point := false, markers := [], visited_modtime := 7 }

/-- C2 log: `[rec, boundary, deletion-record, boundary, rec]`; with
`undo-limit 40` and `undo-strong-limit 1000` the retention scan stops at
the second boundary having exceeded the soft limit only. -/
def c2log : LObj :=
  LObj.cons (LObj.cons (LObj.num 1) (LObj.num 2))
    (LObj.cons LObj.nil
      (LObj.cons (LObj.cons (LObj.str "aaaaaaaaaa") (LObj.num 3))
        (LObj.cons LObj.nil
          (LObj.cons (LObj.cons (LObj.num 7) (LObj.num 8)) LObj.nil))))

/-- C2 output: what `truncate_undo_list 40 1000` actually leaves of
`c2log` — the cut keeps the two newest groups' records but drops the
boundary at which the scan stopped. -/
def c2out : LObj :=
  LObj.cons (LObj.cons (LObj.num 1) (LObj.num 2))
    (LObj.cons LObj.nil
      (LObj.cons (LObj.cons (LObj.str "aaaaaaaaaa") (LObj.num 3)) LObj.nil))

/-- C8 malformed log: `[rec, boundary, rec | 5]` — a cons chain whose
tail is the non-list atom 5. -/
def c8log : LObj :=
  LObj.cons (LObj.cons (LObj.num 1) (LObj.num 2))
    (LObj.cons LObj.nil
      (LObj.cons (LObj.cons (LObj.num 3) (LObj.num 4)) (LObj.num 5)))

/-- C8 output for the malformed log: truncated at the candidate cut
point, the improper tail gone. -/
def c8out : LObj :=
  LObj.cons (LObj.cons (LObj.num 1) (LObj.num 2)) LObj.nil

/-- C9 log: a single insertion record (16 bytes under `undo-size`
accounting). -/
def c9log : LObj :=
  LObj.cons (LObj.cons (LObj.num 1) (LObj.num 2)) LObj.nil

/-- C10 witness state: cursor exactly at the end of the text about to be
deleted (`pt = 3 = 0 + SCHARS "abc"`). -/
def c10st : UState :=
  { undo_list := LObj.nil, pt := 3, modiff := 1, save_modiff := 0,
    pending_boundary := false, last_boundary_buffer_eq := false,
    last_boundary_position := 0, undoably_changed := false,
    inhibit_record_point := false, markers := [], visited_modtime := 0 }

/-!
## Helper lemmas
-/

theorem spine_takeNodes : ∀ (n : Nat) (lst : LObj),
    spine (takeNodes n lst) = (spine lst).take n := by
  intro n
  induction n with
  | zero => intro lst; rfl
  | succ k ih =>
    intro lst
    cases lst with
    | cons a b => simp [takeNodes, spine, ih]
    | nil => rfl
    | t => rfl
    | num m => rfl
    | str s => rfl
    | marker i => rfl

theorem listTail_takeNodes : ∀ (n : Nat) (lst : LObj),
    listTail (takeNodes n lst) = LObj.nil := by
  intro n
  induction n with
  | zero => intro lst; rfl
  | succ k ih =>
    intro lst
    cases lst with
    | cons a b => simp [takeNodes, listTail, ih]
    | nil => rfl
    | t => rfl
    | num m => rfl
    | str s => rfl
    | marker i => rfl

theorem scanFirstCommand_next_tail : ∀ (lst : LObj) (size idx : Nat)
    (prev : Option Nat),
    listTail (scanFirstCommand lst size idx prev).next = listTail lst := by
  intro lst
  induction lst with
  | cons a b iha ihb =>
    intro size idx prev
    rw [scanFirstCommand]
    by_cases ha : a = LObj.nil
    · rw [if_pos ha]
    · rw [if_neg ha, ihb]
      rfl
  | nil => intro _ _ _; rfl
  | t => intro _ _ _; rfl
  | num m => intro _ _ _; rfl
  | str s => intro _ _ _; rfl
  | marker i => intro _ _ _; rfl

theorem scanKeep_next_tail (soft strong : Int) : ∀ (next : LObj)
    (size idx : Nat) (prev lastB : Option Nat),
    listTail (scanKeep soft strong next size idx prev lastB).next
      = listTail next := by
  intro next
  induction next with
  | cons a b iha ihb =>
    intro size idx prev lastB
    rw [scanKeep]
    by_cases ha : a = LObj.nil
    · rw [if_pos ha]
      by_cases h1 : (size : Int) > strong
      · rw [if_pos h1]
      · rw [if_neg h1]
        by_cases h2 : (size : Int) > soft
        · rw [if_pos h2]
        · rw [if_neg h2, ihb]
          rfl
    · rw [if_neg ha, ihb]
      rfl
  | nil => intro _ _ _ _; rfl
  | t => intro _ _ _ _; rfl
  | num m => intro _ _ _ _; rfl
  | str s => intro _ _ _ _; rfl
  | marker i => intro _ _ _ _; rfl

theorem truncPhaseAB_next_tail (lst : LObj) :
    listTail (truncPhaseAB lst).next = listTail lst := by
  cases lst with
  | cons a b =>
    cases a with
    | nil =>
      rw [show truncPhaseAB (LObj.cons LObj.nil b)
          = scanFirstCommand b lispConsSize 1 (some 0) from rfl,
        scanFirstCommand_next_tail]
      rfl
    | t => exact scanFirstCommand_next_tail _ 0 0 none
    | num m => exact scanFirstCommand_next_tail _ 0 0 none
    | str s => exact scanFirstCommand_next_tail _ 0 0 none
    | cons x y => exact scanFirstCommand_next_tail _ 0 0 none
    | marker i => exact scanFirstCommand_next_tail _ 0 0 none
  | nil => exact scanFirstCommand_next_tail _ 0 0 none
  | t => exact scanFirstCommand_next_tail _ 0 0 none
  | num m => exact scanFirstCommand_next_tail _ 0 0 none
  | str s => exact scanFirstCommand_next_tail _ 0 0 none
  | marker i => exact scanFirstCommand_next_tail _ 0 0 none

theorem truncScan_next_tail (soft strong : Int) (lst : LObj) :
    listTail (truncScan soft strong lst).next = listTail lst := by
  rw [show truncScan soft strong lst
      = scanKeep soft strong (truncPhaseAB lst).next (truncPhaseAB lst).size
          (truncPhaseAB lst).idx (truncPhaseAB lst).prev
          (initLastB (truncPhaseAB lst)) from rfl,
    scanKeep_next_tail, truncPhaseAB_next_tail]

theorem scanFirstCommand_prev_idx : ∀ (lst : LObj) (size idx : Nat) (prev : Option Nat),
    (∀ j, prev = some j → j + 1 = idx) →
    ∀ j, (scanFirstCommand lst size idx prev).prev = some j →
      j + 1 = (scanFirstCommand lst size idx prev).idx := by
  intro lst
  induction lst with
  | cons a b iha ihb =>
    intro size idx prev hprev j
    rw [scanFirstCommand]
    by_cases ha : a = LObj.nil
    · rw [if_pos ha]; exact hprev j
    · rw [if_neg ha]
      exact ihb _ _ _ (fun m hm => by cases Option.some.inj hm; rfl) j
  | nil => intro size idx prev hprev j h; exact hprev j h
  | t => intro size idx prev hprev j h; exact hprev j h
  | num m => intro size idx prev hprev j h; exact hprev j h
  | str s => intro size idx prev hprev j h; exact hprev j h
  | marker i => intro size idx prev hprev j h; exact hprev j h

theorem truncPhaseAB_prev_idx (lst : LObj) :
    ∀ j, (truncPhaseAB lst).prev = some j → j + 1 = (truncPhaseAB lst).idx := by
  cases lst with
  | cons a b =>
    cases a with
    | nil =>
      exact scanFirstCommand_prev_idx b lispConsSize 1 (some 0)
        (fun j hj => by cases Option.some.inj hj; rfl)
    | t =>
      exact scanFirstCommand_prev_idx _ 0 0 none (fun j hj => by exact Option.noConfusion hj)
    | num m =>
      exact scanFirstCommand_prev_idx _ 0 0 none (fun j hj => by exact Option.noConfusion hj)
    | str s =>
      exact scanFirstCommand_prev_idx _ 0 0 none (fun j hj => by exact Option.noConfusion hj)
    | cons x y =>
      exact scanFirstCommand_prev_idx _ 0 0 none (fun j hj => by exact Option.noConfusion hj)
    | marker i =>
      exact scanFirstCommand_prev_idx _ 0 0 none (fun j hj => by exact Option.noConfusion hj)
  | nil => exact scanFirstCommand_prev_idx _ 0 0 none (fun j hj => by exact Option.noConfusion hj)
  | t => exact scanFirstCommand_prev_idx _ 0 0 none (fun j hj => by exact Option.noConfusion hj)
  | num m => exact scanFirstCommand_prev_idx _ 0 0 none (fun j hj => by exact Option.noConfusion hj)
  | str s => exact scanFirstCommand_prev_idx _ 0 0 none (fun j hj => by exact Option.noConfusion hj)
  | marker i => exact scanFirstCommand_prev_idx _ 0 0 none (fun j hj => by exact Option.noConfusion hj)

theorem initLastB_sub (p : Phase) :
    ∀ j, initLastB p = some j → p.prev = some j := by
  intro j
  unfold initLastB
  cases p.next <;> intro h <;> first | exact h | cases h

theorem scanKeep_lastB_ge (soft strong : Int) (N : Nat) :
    ∀ (next : LObj) (size idx : Nat) (prev lastB : Option Nat),
      N ≤ idx →
      (∀ j, prev = some j → N ≤ j + 1) →
      (∀ j, lastB = some j → N ≤ j + 1) →
      ∀ i, (scanKeep soft strong next size idx prev lastB).lastB = some i →
        N ≤ i + 1 := by
  intro next
  induction next with
  | cons a b iha ihb =>
    intro size idx prev lastB hidx hprev hlast i hres
    rw [scanKeep] at hres
    by_cases ha : a = LObj.nil
    · rw [if_pos ha] at hres
      by_cases h1 : (size : Int) > strong
      · rw [if_pos h1] at hres; exact hlast i hres
      · rw [if_neg h1] at hres
        by_cases h2 : (size : Int) > soft
        · rw [if_pos h2] at hres; exact hprev i hres
        · rw [if_neg h2] at hres
          exact ihb _ _ _ _ (Nat.le_succ_of_le hidx)
            (fun j hj => by cases Option.some.inj hj; exact Nat.le_succ_of_le hidx)
            hprev i hres
    · rw [if_neg ha] at hres
      exact ihb _ _ _ _ (Nat.le_succ_of_le hidx)
        (fun j hj => by cases Option.some.inj hj; exact Nat.le_succ_of_le hidx)
        hlast i hres
  | nil => intro size idx prev lastB _ _ hlast i h; exact hlast i h
  | t => intro size idx prev lastB _ _ hlast i h; exact hlast i h
  | num m => intro size idx prev lastB _ _ hlast i h; exact hlast i h
  | str s => intro size idx prev lastB _ _ hlast i h; exact hlast i h
  | marker m => intro size idx prev lastB _ _ hlast i h; exact hlast i h

theorem truncScan_lastB_ge (soft strong : Int) (lst : LObj) :
    ∀ i, (truncScan soft strong lst).lastB = some i →
      (truncPhaseAB lst).idx ≤ i + 1 := by
  intro i h
  refine scanKeep_lastB_ge soft strong (truncPhaseAB lst).idx
    (truncPhaseAB lst).next (truncPhaseAB lst).size (truncPhaseAB lst).idx
    (truncPhaseAB lst).prev (initLastB (truncPhaseAB lst)) le_rfl
    (fun j hj => Nat.le_of_eq (truncPhaseAB_prev_idx lst j hj).symm)
    (fun j hj => Nat.le_of_eq
      (truncPhaseAB_prev_idx lst j (initLastB_sub _ j hj)).symm)
    i h

theorem mem_spine_foldl_adj (f t : Int) :
    ∀ (ms : List UMarker) (l e : LObj),
      (e ∈ spine (ms.foldl
        (fun acc m =>
          if markerEligible f t m then LObj.cons (adjEntry f t m) acc else acc)
        l)) ↔
      (∃ m ∈ ms, markerEligible f t m = true ∧ e = adjEntry f t m)
        ∨ e ∈ spine l := by
  intro ms
  induction ms with
  | nil => intro l e; simp
  | cons m rest ih =>
    intro l e
    rw [List.foldl_cons]
    by_cases hm : markerEligible f t m
    · rw [if_pos hm, ih]
      constructor
      · rintro (⟨m', hm', he, hee⟩ | h)
        · exact Or.inl ⟨m', List.mem_cons_of_mem m hm', he, hee⟩
        · rcases List.mem_cons.mp
            (show e ∈ adjEntry f t m :: spine l from h) with h' | h'
          · exact Or.inl ⟨m, List.mem_cons_self m rest, hm, h'⟩
          · exact Or.inr h'
      · rintro (⟨m', hm', he, hee⟩ | h)
        · rcases List.mem_cons.mp hm' with h' | h'
          · subst h'
            exact Or.inr (show e ∈ adjEntry f t m' :: spine l from
              hee ▸ List.mem_cons_self _ _)
          · exact Or.inl ⟨m', h', he, hee⟩
        · exact Or.inr (show e ∈ adjEntry f t m :: spine l from
            List.mem_cons_of_mem _ h)
    · rw [if_neg hm, ih]
      constructor
      · rintro (⟨m', hm', he, hee⟩ | h)
        · exact Or.inl ⟨m', List.mem_cons_of_mem m hm', he, hee⟩
        · exact Or.inr h
      · rintro (⟨m', hm', he, hee⟩ | h)
        · rcases List.mem_cons.mp hm' with h' | h'
          · exact absurd (h' ▸ he) (by simpa using hm)
          · exact Or.inl ⟨m', h', he, hee⟩
        · exact Or.inr h

theorem record_point_keeps_list (pt : Int) (st : UState) (a b : LObj) (rest : LObj)
    (h1 : st.undo_list = LObj.cons (LObj.cons a b) rest)
    (h2 : st.save_modiff < st.modiff) :
    (record_point pt st).undo_list = st.undo_list := by
  unfold record_point
  by_cases hi : st.inhibit_record_point
  · rw [if_pos hi]
  · rw [if_neg hi]
    simp only [h1, not_le.mpr h2, if_neg (not_le.mpr h2)]
    simp

theorem truncate_done_cases (soft strong : Int) (outer : Option Int)
    (handler : Option (Nat → Bool)) (lst out : LObj)
    (h1 : truncate_undo_list soft strong outer handler lst = TruncResult.done out) :
    (out = lst ∧ (truncScan soft strong lst).next = LObj.nil)
    ∨ (∃ i, (truncScan soft strong lst).lastB = some i ∧ out = takeNodes (i + 1) lst)
    ∨ ((truncScan soft strong lst).lastB = none ∧ out = LObj.nil
        ∧ (truncScan soft strong lst).next ≠ LObj.nil) := by
  unfold truncate_undo_list at h1
  dsimp only at h1
  split at h1
  · exact TruncResult.noConfusion h1
  · split at h1
    · rename_i hnil
      exact Or.inl ⟨(TruncResult.done.inj h1).symm, hnil⟩
    · rename_i hnn
      split at h1
      · rename_i i hi
        exact Or.inr (Or.inl ⟨i, hi, (TruncResult.done.inj h1).symm⟩)
      · rename_i hnone
        exact Or.inr (Or.inr ⟨hnone, (TruncResult.done.inj h1).symm, hnn⟩)

/-!
## The claims
-/

/-- C1: if `truncate_undo_list` runs to completion (the overflow handler
did not report "handled") and the degenerate all-cleared case did not
apply, then the whole leading segment of the log through the most recent
command — the optional leading boundary plus every record up to the first
boundary after them, i.e. the first `(truncPhaseAB lst).idx` entries — is
preserved unchanged in the resulting log, whatever that command's
accumulated cost (no size hypothesis appears). -/
theorem trunc_preserves_first_command (soft strong : Int) (outer : Option Int)
    (handler : Option (Nat → Bool)) (lst out : LObj)
    (h1 : truncate_undo_list soft strong outer handler lst = TruncResult.done out)
    (h2 : truncClearsAll soft strong lst = false) :
    (spine out).take (truncPhaseAB lst).idx
      = (spine lst).take (truncPhaseAB lst).idx := by
  rcases truncate_done_cases soft strong outer handler lst out h1 with
    ⟨rfl, _⟩ | ⟨i, hi, rfl⟩ | ⟨hnone, _, hnn⟩
  · rfl
  · have hge := truncScan_lastB_ge soft strong lst i hi
    rw [spine_takeNodes, List.take_take,
      Nat.min_eq_left hge]
  · unfold truncClearsAll at h2
    simp only [decide_eq_false_iff_not, not_and] at h2
    exact absurd hnone (h2 hnn)

/-- C1 witness: the hypotheses of `trunc_preserves_first_command` hold at
the concrete input and the conclusion follows by applying the theorem. -/
theorem trunc_preserves_first_command_holds :
    truncate_undo_list 40 1000 none none c1log = TruncResult.done c1out
    ∧ truncClearsAll 40 1000 c1log = false
    ∧ (spine c1out).take (truncPhaseAB c1log).idx
        = (spine c1log).take (truncPhaseAB c1log).idx :=
  ⟨rfl, rfl, trunc_preserves_first_command 40 1000 none none c1log c1out rfl rfl⟩

/-- C2 counterexample: the claim says that when the strong limit is not
exceeded at a crossed boundary, "the candidate cut point moves to just
after that boundary" — which would retain the boundary node when the scan
then stops past the soft limit.  On `c2log` with soft limit 40 and strong
limit 1000 the retention scan stops exactly at the second boundary
(accumulated 121 bytes: over the soft limit, under the strong limit), so
the claim predicts the cut keeps the first four nodes,
`takeNodes 4 c2log` (records plus that boundary).  The code instead set
`last_boundary = prev` — the node *before* the boundary — and the actual
result drops the boundary node: three entries, the last one a record. -/
theorem trunc_cut_drops_crossed_boundary :
    truncate_undo_list 40 1000 none none c2log = TruncResult.done c2out
    ∧ (truncScan 40 1000 c2log).next
        = LObj.cons LObj.nil
            (LObj.cons (LObj.cons (LObj.num 7) (LObj.num 8)) LObj.nil)
    ∧ (truncScan 40 1000 c2log).size = 121
    ∧ ((121 : Int) > 40 ∧ ¬ ((121 : Int) > 1000))
    ∧ spine c2out
        = [LObj.cons (LObj.num 1) (LObj.num 2), LObj.nil,
           LObj.cons (LObj.str "aaaaaaaaaa") (LObj.num 3)]
    ∧ c2out ≠ takeNodes 4 c2log :=
  ⟨rfl, rfl, rfl, by decide, rfl, by decide⟩

/-- C2 amended: one step of the retention loop at a boundary.  If the
accumulated cost exceeds the strong limit, the scan stops with the
candidate cut point unchanged (`lastB`: the cut falls before this
boundary's group).  Otherwise the candidate moves to `prev` — the node
directly preceding the boundary, so that cutting there keeps exactly the
groups scanned so far and drops the boundary node itself and everything
older — and if the accumulated cost also exceeds the soft limit the scan
stops there; else it continues past the boundary (charging its chain
link) with the moved candidate. -/
theorem scanKeep_boundary_step (soft strong : Int) (rest : LObj)
    (size idx : Nat) (prev lastB : Option Nat) :
    scanKeep soft strong (LObj.cons LObj.nil rest) size idx prev lastB =
      if (size : Int) > strong then ⟨lastB, LObj.cons LObj.nil rest, size⟩
      else if (size : Int) > soft then ⟨prev, LObj.cons LObj.nil rest, size⟩
      else scanKeep soft strong rest (size + lispConsSize) (idx + 1)
        (some idx) prev := by
  rw [scanKeep, if_pos rfl]
  rfl

/-- C3: with a boundary count of zero (or absent, which leaves the C local
`num` uninitialized and is modelled as zero per the spec's design note),
`undo-size` does *not* scan the whole list: its boundary test
`CONSP (elt) && XCAR (elt) == Qnil` fires on a property-change record, the
counter reaches `1 >= 0`, and the scan breaks after 16 bytes, while the
whole list costs 32 bytes under the same per-entry accounting.  (The break
at the first counted "boundary" happens for *any* start value of the
uninitialized counter `boundary_so_far ≥ -1`, so the divergence does not
depend on the zero-initialization choice.)  This contradicts the function's
own doc string, "or the whole list iff n is zero". -/
theorem undo_size_zero_stops_at_property_entry :
    Fundo_size (LObj.num 0) c3log = Except.ok (LObj.num 16)
    ∧ Fundo_size LObj.nil c3log = Except.ok (LObj.num 16)
    ∧ undoSizeFull c3log = 32
    ∧ (16 : Nat) ≠ 32 :=
  ⟨rfl, rfl, rfl, by decide⟩

/-- C4 counterexample: over the same one-record log (which is exactly the
first command, so `(truncPhaseAB c4log).size` is the truncation scan's
accumulated cost over that segment), `undo-size` reports 16 bytes but the
truncation scan accumulates 32: the per-entry costs do not agree, because
`truncate_undo_list` charges `sizeof (struct Lisp_Cons)` for the record's
own cons cell and `Fundo_size` does not. -/
theorem cost_models_disagree :
    Fundo_size LObj.nil c4log = Except.ok (LObj.num 16)
    ∧ (truncPhaseAB c4log).size = 32
    ∧ (16 : Nat) ≠ 32 :=
  ⟨rfl, rfl, by decide⟩

/-- C4 amended: the two per-entry cost functions agree on the chain-link
overhead and on the string bytes of a deletion record, but the truncation
scan additionally charges one `Lisp_Cons` for every cons-shaped record;
hence over any run of entries the truncation-accumulated size equals the
`undo-size` figure plus that per-cons surcharge. -/
theorem trunc_cost_is_size_cost_plus_cons_overhead :
    (∀ e : LObj, entryCost e = undoSizeCost e + consExtra e)
    ∧ (∀ l : List LObj,
        (l.map entryCost).sum = (l.map undoSizeCost).sum + (l.map consExtra).sum) := by
  constructor
  · intro e
    cases e <;> simp [entryCost, undoSizeCost, consExtra] <;> omega
  · intro l
    induction l with
    | nil => rfl
    | cons e rest ih =>
      simp only [List.map_cons, List.sum_cons, ih]
      have he : entryCost e = undoSizeCost e + consExtra e := by
        cases e <;> simp [entryCost, undoSizeCost, consExtra] <;> omega
      omega

/-- C5 counterexample: `record_marker_adjustments 1 3` pushes an
adjustment record `(MARKER . -2)` for a marker at position 3, although
3 does not lie in the half-open interval `[1, 3)` — the C test is
`from <= charpos && charpos <= to`, a closed interval. -/
theorem marker_at_right_edge_gets_record :
    (record_marker_adjustments 1 3 c5st).undo_list
      = LObj.cons (LObj.cons (LObj.marker 0) (LObj.num (-2))) LObj.nil
    ∧ ¬ ((3 : Int) < 3) :=
  ⟨rfl, by decide⟩

/-- C5 amended: an adjustment entry appears in the log after
`record_marker_adjustments from to` exactly for the markers whose position
lies in the *closed* interval `[from, to]` and whose computed delta —
`(to if sticky else from) - position` — is nonzero, plus whatever was in
the log already; no entry is pushed for a marker outside the closed
interval or with zero delta. -/
theorem marker_adjustments_exactly_closed_interval (f t : Int) (st : UState)
    (e : LObj) :
    e ∈ spine (record_marker_adjustments f t st).undo_list ↔
      (∃ m ∈ st.markers, (f ≤ m.pos ∧ m.pos ≤ t ∧ markerAdjustment f t m ≠ 0)
        ∧ e = adjEntry f t m)
      ∨ e ∈ spine st.undo_list := by
  unfold record_marker_adjustments
  dsimp only
  rw [mem_spine_foldl_adj]
  constructor
  · rintro (⟨m, hm, he, hee⟩ | h)
    · refine Or.inl ⟨m, hm, ?_, hee⟩
      simpa [markerEligible, and_assoc] using he
    · exact Or.inr h
  · rintro (⟨m, hm, he, hee⟩ | h)
    · refine Or.inl ⟨m, hm, ?_, hee⟩
      simpa [markerEligible, and_assoc] using he
    · exact Or.inr h

/-- C6 counterexample: with the log head the insertion record `(10 . 13)`
and the buffer unmodified since save, `record_insert 13 2` does *not*
extend the head in place: `record_point` first pushes a `(t . TIME)`
first-change record, the coalescing test then sees that record at the
head, fails its `INTEGERP` checks, and a fresh `(13 . 15)` record is
pushed — two new entries, and no `(10 . 15)` at the head. -/
theorem insert_not_coalesced_when_unmodified :
    c6st.undo_list = LObj.cons (LObj.cons (LObj.num 10) (LObj.num 13)) LObj.nil
    ∧ (record_insert 13 2 c6st).undo_list
        = LObj.cons (LObj.cons (LObj.num 13) (LObj.num 15))
            (LObj.cons (LObj.cons LObj.t (LObj.num 0))
              (LObj.cons (LObj.cons (LObj.num 10) (LObj.num 13)) LObj.nil))
    ∧ (record_insert 13 2 c6st).undo_list
        ≠ LObj.cons (LObj.cons (LObj.num 10) (LObj.num 15)) LObj.nil :=
  ⟨rfl, rfl, by decide⟩

/-- C6 amended: when the log head is an insertion record `(a . b)` whose
end equals the new insertion's begin `b` *and* the buffer is already
modified since its last save (so `record_point` pushes nothing), then
`record_insert b n` extends the head record in place to `(a . b + n)` and
pushes no new entry. -/
theorem insert_coalesces_when_modified (st : UState) (a b n : Int) (rest : LObj)
    (h1 : st.undo_list = LObj.cons (LObj.cons (LObj.num a) (LObj.num b)) rest)
    (h2 : st.save_modiff < st.modiff) :
    (record_insert b n st).undo_list
      = LObj.cons (LObj.cons (LObj.num a) (LObj.num (b + n))) rest := by
  have hkeep := record_point_keeps_list b st (LObj.num a) (LObj.num b) rest h1 h2
  unfold record_insert
  rw [if_neg (show ¬ st.undo_list = LObj.t by
    rw [h1]; exact fun h => LObj.noConfusion h)]
  dsimp only
  rw [hkeep, h1]
  dsimp only
  rw [if_pos rfl]

/-- C6 witness: `record_insert 10 3` followed by `record_insert 13 2` on a
modified buffer leaves the single coalesced record `(10 . 15)`; here the
second call is obtained from `insert_coalesces_when_modified` at the
concrete state after the first. -/
theorem insert_coalesces_when_modified_holds :
    (record_insert 13 2 c6wst).undo_list
      = LObj.cons (LObj.cons (LObj.num 10) (LObj.num 15)) LObj.nil :=
  insert_coalesces_when_modified c6wst 10 13 2 LObj.nil rfl (by decide)

/-- C7 counterexample: called on an indirect buffer (base present),
`record_first_change` pushes the `(t . TIME)` record onto the *current*
buffer's log with the *current* buffer's modtime (5), and returns the base
buffer entirely unchanged (its log still empty, its modtime 7 unused):
the record is not produced for the root buffer.  In the C source the
computed `base_buffer` is dead — `bset_undo_list (current_buffer, ...)`
and `Fvisited_file_modtime ()` both act on `current_buffer`. -/
theorem first_change_not_produced_for_root :
    (record_first_change c7cur (some c7base)).2 = some c7base
    ∧ (record_first_change c7cur (some c7base)).1.undo_list
        = LObj.cons (LObj.cons LObj.t (LObj.num 5)) LObj.nil
    ∧ c7base.undo_list = LObj.nil
    ∧ c7base.visited_modtime = 7
    ∧ (5 : Int) ≠ 7 :=
  ⟨rfl, rfl, rfl, rfl, by decide⟩

/-- C7 amended: for any indirect buffer with logging enabled,
`record_first_change` resolves the base buffer but never uses it: the
first-change record carries the *current* buffer's visited-file modtime
and is pushed onto the *current* buffer's log, and the base buffer is
returned untouched. -/
theorem first_change_targets_current_buffer (cur base : UState)
    (h : cur.undo_list ≠ LObj.t) :
    record_first_change cur (some base)
      = ({ cur with undo_list := LObj.cons (LObj.cons LObj.t (LObj.num cur.visited_modtime)) cur.undo_list }, some base) := by
  unfold record_first_change
  rw [if_neg h]

/-- C7 witness: `first_change_targets_current_buffer` applied at the
concrete indirect/base pair. -/
theorem first_change_targets_current_buffer_holds :
    c7cur.undo_list ≠ LObj.t
    ∧ record_first_change c7cur (some c7base)
        = ({ c7cur with undo_list := LObj.cons (LObj.cons LObj.t (LObj.num c7cur.visited_modtime)) c7cur.undo_list }, some c7base) :=
  ⟨by decide, first_change_targets_current_buffer c7cur c7base (by decide)⟩

/-- C8 counterexample: on the disabled sentinel — a buffer whose stored
log is `t`, not a list — `truncate_undo_list` does not leave the log
field unchanged: no node is ever scanned, `last_boundary` stays `nil`,
the final `NILP (next)` test fails (`next` is `t`), and the routine
falls into `bset_undo_list (b, Qnil)`, replacing the sentinel with an
empty (enabled!) log. -/
theorem truncate_on_disabled_sentinel_changes_log :
    truncate_undo_list 80000 120000 (some 12000000) none LObj.t
      = TruncResult.done LObj.nil
    ∧ LObj.nil ≠ LObj.t :=
  ⟨rfl, by decide⟩

/-- C8 amended: for *every* log whose stored value is not a proper list
(`listTail lst ≠ nil`: the disabled sentinel `t`, or any cons chain with
a malformed tail), under any limits, outer limit and handler, whenever
`truncate_undo_list` runs to completion it does not fail closed: the
"scanned the whole list, don't change it" branch is unreachable (the
scan's final `next` carries the original tail, never `nil`), so either a
candidate cut point was established and the list is truncated there —
yielding a proper list, the malformed tail never reached — or no
candidate exists and the whole log is replaced by the empty log `nil`. -/
theorem truncate_on_improper_list (soft strong : Int) (outer : Option Int)
    (handler : Option (Nat → Bool)) (lst out : LObj)
    (h1 : truncate_undo_list soft strong outer handler lst = TruncResult.done out)
    (h2 : listTail lst ≠ LObj.nil) :
    (∃ i, (truncScan soft strong lst).lastB = some i
      ∧ out = takeNodes (i + 1) lst ∧ listTail out = LObj.nil)
    ∨ ((truncScan soft strong lst).lastB = none ∧ out = LObj.nil) := by
  rcases truncate_done_cases soft strong outer handler lst out h1 with
    ⟨heq, hnil⟩ | ⟨i, hi, heq⟩ | ⟨hnone, heq, _⟩
  · exact absurd
      (by rw [← truncScan_next_tail soft strong lst, hnil]; rfl) h2
  · exact Or.inl ⟨i, hi, heq, by rw [heq]; exact listTail_takeNodes _ _⟩
  · exact Or.inr ⟨hnone, heq⟩

/-- C8 witness: `truncate_on_improper_list` applied to the malformed log
`[rec, boundary, rec | 5]` (hypotheses discharged at the concrete input):
a candidate exists and the list is truncated to the proper list
`[rec]`. -/
theorem truncate_on_improper_list_holds :
    truncate_undo_list 80000 120000 none none c8log = TruncResult.done c8out
    ∧ listTail c8log ≠ LObj.nil
    ∧ ((∃ i, (truncScan 80000 120000 c8log).lastB = some i
          ∧ c8out = takeNodes (i + 1) c8log ∧ listTail c8out = LObj.nil)
        ∨ ((truncScan 80000 120000 c8log).lastB = none ∧ c8out = LObj.nil)) :=
  ⟨rfl, by decide,
    truncate_on_improper_list 80000 120000 none none c8log c8out rfl (by decide)⟩

/-- C9 counterexample: a negative boundary count is *not* rejected:
`CHECK_NUMBER` only requires an integer, so `undo-size` with count `-1`
returns a size (16) and signals no error. -/
theorem negative_count_not_rejected :
    Fundo_size (LObj.num (-1)) c9log = Except.ok (LObj.num 16)
    ∧ Fundo_size (LObj.num (-1)) c9log ≠ Except.error () :=
  ⟨rfl, fun h => by exact Except.noConfusion ((rfl :
    Fundo_size (LObj.num (-1)) c9log = Except.ok (LObj.num 16)) ▸ h)⟩

/-- C9 amended: `undo-size` signals an error only for counts that are
neither absent nor integers; every integer count — negative included —
is accepted and produces a size. -/
theorem undo_size_accepts_any_integer_count (k : Int) (lst : LObj)
    (h : lst ≠ LObj.t) :
    Fundo_size (LObj.num k) lst
      = Except.ok (LObj.num (undoSizeScan k lst 0 0)) := by
  unfold Fundo_size
  rw [if_neg h]

/-- C9 witness: the amended theorem applied at count `-1` and the
concrete one-record log. -/
theorem undo_size_accepts_any_integer_count_holds :
    c9log ≠ LObj.t
    ∧ Fundo_size (LObj.num (-1)) c9log
        = Except.ok (LObj.num (undoSizeScan (-1) c9log 0 0)) :=
  ⟨by decide, undo_size_accepts_any_integer_count (-1) c9log (by decide)⟩

/-- C10: for a deletion at `beg = 0`, the pushed deletion record is the
same `(STRING . 0)` whatever the cursor position: the at-end flag is
encoded as `XSETINT (sbeg, -beg)` and `-0 = 0`, so the record pushed when
the cursor sits exactly at the end of the deleted text (`PT = SCHARS`)
is byte-for-byte the record pushed in the ordinary case. -/
theorem delete_at_zero_record_independent_of_cursor (s : String) (st : UState)
    (h : st.undo_list ≠ LObj.t) :
    ∃ rest : LObj, (record_delete 0 s false st).undo_list
      = LObj.cons (LObj.cons (LObj.str s) (LObj.num 0)) rest := by
  unfold record_delete
  rw [if_neg h]
  dsimp only
  by_cases hA : st.pt = 0 + (s.length : Int)
  · rw [decide_eq_true hA]
    exact ⟨_, rfl⟩
  · rw [decide_eq_false hA]
    exact ⟨_, rfl⟩

/-- C10 witness: the theorem applied in the cursor-at-end case. -/
theorem delete_at_zero_record_independent_of_cursor_holds :
    c10st.undo_list ≠ LObj.t
    ∧ ∃ rest : LObj, (record_delete 0 "abc" false c10st).undo_list
        = LObj.cons (LObj.cons (LObj.str "abc") (LObj.num 0)) rest :=
  ⟨by decide, delete_at_zero_record_independent_of_cursor "abc" c10st (by decide)⟩

end Undo
